import Mathlib

/-!
Shallow embedding of the `reposcan` repository (src/main.rs, src/repositories.rs).

Strings from the Rust side (paths, entry names, file contents) are modelled as
`List Char`; a value of type `Option (List Char)` models an `OsStr` whose
`to_str()` may fail (`none` = not representable as text).  Filesystem paths
produced by the scanner are modelled as lists of path segments.  Fallible Rust
calls (`?`) are modelled with `Except`; a Rust `panic!`/`unwrap` failure is
modelled by an outer `Option` whose `none` means the process panicked.
-/

namespace Reposcan

/-- Characters of a string literal, used to write concrete inputs. -/
def chars (s : String) : List Char := s.data

/-- The fixed metadata-directory name recognized by the scanner (`.git`). -/
def gitName : List Char := chars ".git"

/-- The fixed exclusion-marker file name (`.reposcanignore`). -/
def ignoreName : List Char := chars ".reposcanignore"

/-- A filesystem object: a file with contents, or a directory with a listed
sequence of children.  Each child carries its entry name as seen by
`DirEntry::file_name().to_str()`: `none` models a name that is not valid
text. -/
inductive FsObj where
  | file (content : List Char)
  | dir (children : List (Option (List Char) × FsObj))
deriving Repr

/-- Model of Rust `str::lines`: strip one trailing carriage return from a
piece, used for every piece that was terminated by a line feed. -/
def stripCR (l : List Char) : List Char :=
  if l.getLast? = some '\r' then l.dropLast else l

/-- Split a character list at every line-feed character (pieces do not contain
the separator; a trailing separator yields a trailing empty piece). -/
def splitNl : List Char → List (List Char)
  | [] => [[]]
  | c :: rest =>
    if c = '\n' then [] :: splitNl rest
    else
      match splitNl rest with
      | [] => [[c]]
      | p :: ps => (c :: p) :: ps

/-- Second half of the `str::lines` model: every piece except the last was
terminated by a line feed and has a trailing carriage return stripped; the
final empty piece produced by a trailing line feed is dropped, and a last
piece with no terminator is kept unchanged. -/
def rustLines0 : List (List Char) → List (List Char)
  | [] => []
  | [last] => if last = [] then [] else [last]
  | piece :: rest => stripCR piece :: rustLines0 rest

/-- Model of Rust `str::lines` on a character list. -/
def rustLinesL (content : List Char) : List (List Char) :=
  rustLines0 (splitNl content)

/-- One pass over a directory listing, mirroring the `for entry in
fs::read_dir(..)` loop of `discover` (src/main.rs lines 58-89): children with
non-text names are skipped; a child directory named `.git` causes the early
`return` (modelled as `none`); other child directories are collected in
listing order; a child file named `.reposcanignore` sets the ignore pattern
set to its parsed lines (a later marker overwrites an earlier one, as the
loop reassigns the variable). -/
def scanChildren : List (Option (List Char) × FsObj) →
    Option (List (List Char × FsObj) × Option (List (List Char)))
  | [] => some ([], none)
  | (none, _) :: rest => scanChildren rest
  | (some n, FsObj.dir cs) :: rest =>
    if n = gitName then none
    else (scanChildren rest).map (fun r => ((n, FsObj.dir cs) :: r.1, r.2))
  | (some n, FsObj.file c) :: rest =>
    if n = ignoreName then
      (scanChildren rest).map
        (fun r => (r.1, match r.2 with
          | some ps => some ps
          | none => some (rustLinesL c)))
    else scanChildren rest

theorem scanChildren_nil : scanChildren [] = some ([], none) := rfl

theorem scanChildren_cons_none (obj : FsObj)
    (tl : List (Option (List Char) × FsObj)) :
    scanChildren ((none, obj) :: tl) = scanChildren tl := by
  cases obj <;> rfl

theorem scanChildren_cons_dir (n : List Char) (cs : List (Option (List Char) × FsObj))
    (tl : List (Option (List Char) × FsObj)) :
    scanChildren ((some n, FsObj.dir cs) :: tl) =
      if n = gitName then none
      else (scanChildren tl).map (fun r => ((n, FsObj.dir cs) :: r.1, r.2)) := rfl

theorem scanChildren_cons_file (n : List Char) (c : List Char)
    (tl : List (Option (List Char) × FsObj)) :
    scanChildren ((some n, FsObj.file c) :: tl) =
      if n = ignoreName then
        (scanChildren tl).map
          (fun r => (r.1, match r.2 with
            | some ps => some ps
            | none => some (rustLinesL c)))
      else scanChildren tl := rfl

theorem scanChildren_sizeOf {l : List (Option (List Char) × FsObj)}
    {sc : List (List Char × FsObj) × Option (List (List Char))}
    (h : scanChildren l = some sc) :
    ∀ q ∈ sc.1, sizeOf q.2 < 1 + sizeOf l := by
  induction l generalizing sc with
  | nil =>
    rw [scanChildren_nil] at h
    injection h with h
    rw [← h]
    intro q hq
    cases hq
  | cons hd tl ih =>
    obtain ⟨nm, obj⟩ := hd
    cases nm with
    | none =>
      rw [scanChildren_cons_none] at h
      intro q hq
      have := ih h q hq
      simp only [List.cons.sizeOf_spec]
      omega
    | some n =>
      cases obj with
      | dir cs =>
        rw [scanChildren_cons_dir] at h
        by_cases hg : n = gitName
        · rw [if_pos hg] at h; cases h
        · rw [if_neg hg] at h
          cases hsc : scanChildren tl with
          | none => rw [hsc] at h; cases h
          | some r =>
            rw [hsc, Option.map_some'] at h
            injection h with h
            rw [← h]
            intro q hq
            rcases List.mem_cons.mp hq with hq1 | hq2
            · subst hq1
              simp only [List.cons.sizeOf_spec, Prod.mk.sizeOf_spec]
              omega
            · have := ih hsc q hq2
              simp only [List.cons.sizeOf_spec]
              omega
      | file c =>
        rw [scanChildren_cons_file] at h
        by_cases hi : n = ignoreName
        · rw [if_pos hi] at h
          cases hsc : scanChildren tl with
          | none => rw [hsc] at h; cases h
          | some r =>
            rw [hsc, Option.map_some'] at h
            injection h with h
            rw [← h]
            intro q hq
            have := ih hsc q hq
            simp only [List.cons.sizeOf_spec]
            omega
        · rw [if_neg hi] at h
          intro q hq
          have := ih h q hq
          simp only [List.cons.sizeOf_spec]
          omega

/-- The in-pass exclusion filtering of `discover` (src/main.rs lines 91-109):
when an exclusion marker was found, drop every collected child directory whose
entry name is listed in it; otherwise keep all collected child directories. -/
def filterIgnored
    (sc : List (List Char × FsObj) × Option (List (List Char))) :
    List (List Char × FsObj) :=
  match sc.2 with
  | some ps => sc.1.filter (fun e => !ps.contains e.1)
  | none => sc.1

theorem mem_filterIgnored {sc} {q : List Char × FsObj}
    (h : q ∈ filterIgnored sc) : q ∈ sc.1 := by
  unfold filterIgnored at h
  cases hs : sc.2 with
  | none => rw [hs] at h; exact h
  | some ps => rw [hs] at h; exact List.mem_of_mem_filter h

/-- The recursive discovery scanner (src/main.rs lines 48-123, identical copy
in src/repositories.rs lines 6-81), with the verbose printing dropped (it
does not affect the result).  `path` is the scanned directory; the result is
the list of repository-root paths.  A `.git` child directory makes the
function return `[path]` immediately; otherwise the collected child
directories, filtered by the ignore patterns when a marker was present, are
scanned recursively and the results concatenated. -/
def discover (path : List (List Char)) : FsObj → List (List (List Char))
  | FsObj.file _ => []
  | FsObj.dir children =>
    match h : scanChildren children with
    | none => [path]
    | some sc =>
      ((filterIgnored sc).attach.map
        (fun e => discover (path ++ [e.1.1]) e.1.2)).flatten
termination_by t => sizeOf t
decreasing_by
  have hds : e.1 ∈ sc.1 := mem_filterIgnored e.2
  have := scanChildren_sizeOf (by simpa using h) e.1 hds
  simp only [FsObj.dir.sizeOf_spec]
  omega

theorem discover_file (path : List (List Char)) (c : List Char) :
    discover path (FsObj.file c) = [] := by
  rw [discover.eq_def]

theorem discover_dir_none (path : List (List Char))
    (children : List (Option (List Char) × FsObj))
    (h : scanChildren children = none) :
    discover path (FsObj.dir children) = [path] := by
  rw [discover.eq_def]
  dsimp only
  split
  · rfl
  · rename_i sc h2; rw [h] at h2; cases h2

theorem discover_dir_some (path : List (List Char))
    (children : List (Option (List Char) × FsObj))
    (sc : List (List Char × FsObj) × Option (List (List Char)))
    (h : scanChildren children = some sc) :
    discover path (FsObj.dir children) =
      ((filterIgnored sc).map (fun e => discover (path ++ [e.1]) e.2)).flatten := by
  rw [discover.eq_def]
  dsimp only
  split
  · rename_i h2; rw [h] at h2; cases h2
  · rename_i sc2 h2
    rw [h] at h2
    cases h2
    congr 1
    exact List.attach_map_coe (filterIgnored sc) (fun x => discover (path ++ [x.1]) x.2)

/-- The scan pass hits the early `return` exactly when some child is a
directory named `.git`. -/
theorem scanChildren_eq_none_iff (l : List (Option (List Char) × FsObj)) :
    scanChildren l = none ↔ ∃ cs, (some gitName, FsObj.dir cs) ∈ l := by
  induction l with
  | nil =>
    rw [scanChildren_nil]
    constructor
    · intro h; cases h
    · rintro ⟨cs, hcs⟩; cases hcs
  | cons hd tl ih =>
    obtain ⟨nm, obj⟩ := hd
    cases nm with
    | none =>
      rw [scanChildren_cons_none, ih]
      constructor
      · rintro ⟨cs, hcs⟩; exact ⟨cs, List.mem_cons_of_mem _ hcs⟩
      · rintro ⟨cs, hcs⟩
        rcases List.mem_cons.mp hcs with h1 | h2
        · cases h1
        · exact ⟨cs, h2⟩
    | some n =>
      cases obj with
      | dir cs =>
        rw [scanChildren_cons_dir]
        by_cases hg : n = gitName
        · subst hg
          rw [if_pos rfl]
          constructor
          · intro _; exact ⟨cs, List.mem_cons_self _ _⟩
          · intro _; rfl
        · rw [if_neg hg, Option.map_eq_none', ih]
          constructor
          · rintro ⟨cs2, hcs⟩; exact ⟨cs2, List.mem_cons_of_mem _ hcs⟩
          · rintro ⟨cs2, hcs⟩
            rcases List.mem_cons.mp hcs with h1 | h2
            · cases h1; exact absurd rfl hg
            · exact ⟨cs2, h2⟩
      | file c =>
        have hstep : scanChildren ((some n, FsObj.file c) :: tl) = none
            ↔ scanChildren tl = none := by
          rw [scanChildren_cons_file]
          by_cases hi : n = ignoreName
          · rw [if_pos hi]
            exact Option.map_eq_none'
          · rw [if_neg hi]
        rw [hstep, ih]
        constructor
        · rintro ⟨cs2, hcs⟩; exact ⟨cs2, List.mem_cons_of_mem _ hcs⟩
        · rintro ⟨cs2, hcs⟩
          rcases List.mem_cons.mp hcs with h1 | h2
          · cases h1
          · exact ⟨cs2, h2⟩

/-- Every path the scanner returns extends the scanned directory's path. -/
theorem discover_prefix :
    ∀ (path : List (List Char)) (t : FsObj),
      ∀ q ∈ discover path t, path <+: q := by
  intro path t
  induction path, t using discover.induct with
  | case1 path c =>
    rw [discover_file]
    intro q hq
    cases hq
  | case2 path children h =>
    rw [discover_dir_none path children h]
    intro q hq
    rcases List.mem_singleton.mp hq with rfl
    exact List.prefix_refl _
  | case3 path children sc h ih =>
    rw [discover_dir_some path children sc h]
    intro q hq
    rw [List.mem_flatten] at hq
    obtain ⟨l2, hl2, hql⟩ := hq
    rw [List.mem_map] at hl2
    obtain ⟨e, he, rfl⟩ := hl2
    have hsub : (path ++ [e.1]) <+: q := by
      have := ih ⟨e, he⟩ q
      simpa using this hql
    exact List.IsPrefix.trans (List.prefix_append _ _) hsub

/-- When the scan pass completes with an effective ignore-pattern set, that
set came from a marker file among the children, parsed by the line splitter. -/
theorem scanChildren_patterns_source {l : List (Option (List Char) × FsObj)}
    {ds : List (List Char × FsObj)} {ps : List (List Char)}
    (h : scanChildren l = some (ds, some ps)) :
    ∃ c, (some ignoreName, FsObj.file c) ∈ l ∧ ps = rustLinesL c := by
  induction l generalizing ds ps with
  | nil =>
    rw [scanChildren_nil] at h
    cases h
  | cons hd tl ih =>
    obtain ⟨nm, obj⟩ := hd
    cases nm with
    | none =>
      rw [scanChildren_cons_none] at h
      obtain ⟨c, hc, hps⟩ := ih h
      exact ⟨c, List.mem_cons_of_mem _ hc, hps⟩
    | some n =>
      cases obj with
      | dir cs =>
        rw [scanChildren_cons_dir] at h
        by_cases hg : n = gitName
        · rw [if_pos hg] at h; cases h
        · rw [if_neg hg] at h
          cases hsc : scanChildren tl with
          | none => rw [hsc] at h; cases h
          | some r =>
            rw [hsc] at h
            simp only [Option.map_some', Option.some.injEq, Prod.mk.injEq] at h
            obtain ⟨c, hc, hps⟩ := ih
              (show scanChildren tl = some (r.1, some ps) by rw [hsc, ← h.2])
            exact ⟨c, List.mem_cons_of_mem _ hc, hps⟩
      | file c0 =>
        rw [scanChildren_cons_file] at h
        by_cases hi : n = ignoreName
        · rw [if_pos hi] at h
          cases hsc : scanChildren tl with
          | none => rw [hsc] at h; cases h
          | some r =>
            rw [hsc] at h
            simp only [Option.map_some', Option.some.injEq, Prod.mk.injEq] at h
            cases hr2 : r.2 with
            | none =>
              rw [hr2] at h
              have hps : some ps = some (rustLinesL c0) := by
                rw [← h.2]
              subst hi
              exact ⟨c0, List.mem_cons_self _ _, by injection hps⟩
            | some ps0 =>
              rw [hr2] at h
              have hps : some ps = some ps0 := by rw [← h.2]
              obtain ⟨c, hc, hps'⟩ := ih
                (show scanChildren tl = some (r.1, some ps0) by rw [hsc, ← hr2])
              exact ⟨c, List.mem_cons_of_mem _ hc, by injection hps with h3; rw [h3, hps']⟩
        · rw [if_neg hi] at h
          obtain ⟨c, hc, hps⟩ := ih h
          exact ⟨c, List.mem_cons_of_mem _ hc, hps⟩

/-- When a marker file is among the children and the scan pass completes, the
effective ignore-pattern set is present. -/
theorem scanChildren_patterns_isSome {l : List (Option (List Char) × FsObj)}
    {ds : List (List Char × FsObj)} {ps : Option (List (List Char))}
    {content : List Char}
    (hm : (some ignoreName, FsObj.file content) ∈ l)
    (h : scanChildren l = some (ds, ps)) : ps.isSome := by
  induction l generalizing ds ps with
  | nil => cases hm
  | cons hd tl ih =>
    obtain ⟨nm, obj⟩ := hd
    rcases List.mem_cons.mp hm with hhd | htl
    · cases hhd
      rw [scanChildren_cons_file, if_pos rfl] at h
      cases hsc : scanChildren tl with
      | none => rw [hsc] at h; cases h
      | some r =>
        rw [hsc] at h
        simp only [Option.map_some', Option.some.injEq, Prod.mk.injEq] at h
        rw [← h.2]
        cases r.2 <;> rfl
    · cases nm with
      | none =>
        rw [scanChildren_cons_none] at h
        exact ih htl h
      | some n =>
        cases obj with
        | dir cs =>
          rw [scanChildren_cons_dir] at h
          by_cases hg : n = gitName
          · rw [if_pos hg] at h; cases h
          · rw [if_neg hg] at h
            cases hsc : scanChildren tl with
            | none => rw [hsc] at h; cases h
            | some r =>
              rw [hsc] at h
              simp only [Option.map_some', Option.some.injEq, Prod.mk.injEq] at h
              have := ih htl (show scanChildren tl = some (r.1, r.2) by rw [hsc])
              rw [← h.2]
              exact this
        | file c0 =>
          rw [scanChildren_cons_file] at h
          by_cases hi : n = ignoreName
          · rw [if_pos hi] at h
            cases hsc : scanChildren tl with
            | none => rw [hsc] at h; cases h
            | some r =>
              rw [hsc] at h
              simp only [Option.map_some', Option.some.injEq, Prod.mk.injEq] at h
              rw [← h.2]
              cases r.2 <;> rfl
          · rw [if_neg hi] at h
            exact ih htl h

/-- C5: for every directory tree, when a scanned directory has an immediate
child directory named `.git`, the discovery scanner returns exactly the
single-element result containing that directory and performs no further
descent into any of its other children; in particular nested
repositories-within-repositories are not discovered. -/
theorem git_child_returns_self (path : List (List Char))
    (children : List (Option (List Char) × FsObj))
    (h : ∃ cs, (some gitName, FsObj.dir cs) ∈ children) :
    discover path (FsObj.dir children) = [path] :=
  discover_dir_none path children ((scanChildren_eq_none_iff children).mpr h)

/-- Witness for C5 on the tree `a/.git`, `a/b/.git`: the scan yields `{a}`
only, never `{a, a/b}`. -/
theorem git_child_returns_self_witness :
    discover [chars "a"]
      (FsObj.dir
        [(some gitName, FsObj.dir []),
         (some (chars "b"), FsObj.dir [(some gitName, FsObj.dir [])])])
      = [[chars "a"]] :=
  git_child_returns_self [chars "a"] _ ⟨[], List.mem_cons_self _ _⟩

/-- C10: if a scanned directory has an immediate `.git` child directory, it is
classified as a repository root even when an exclusion marker file is also
present, whatever that marker's contents (including lines naming `.git` or any
sibling): the root classification cannot be suppressed by the marker in the
same directory. -/
theorem git_child_wins_over_marker (path : List (List Char))
    (children : List (Option (List Char) × FsObj))
    (gcs : List (Option (List Char) × FsObj)) (content : List Char)
    (hgit : (some gitName, FsObj.dir gcs) ∈ children)
    (hmarker : (some ignoreName, FsObj.file content) ∈ children) :
    discover path (FsObj.dir children) = [path] :=
  discover_dir_none path children
    ((scanChildren_eq_none_iff children).mpr ⟨gcs, hgit⟩)

/-- Witness for C10: a directory holding both a `.git` child directory and a
marker whose single line is `.git` is still returned as the repository root. -/
theorem git_child_wins_over_marker_witness :
    discover [chars "a"]
      (FsObj.dir
        [(some ignoreName, FsObj.file (chars ".git\n")),
         (some gitName, FsObj.dir [])])
      = [[chars "a"]] :=
  git_child_wins_over_marker [chars "a"] _ [] (chars ".git\n")
    (List.mem_cons_of_mem _ (List.mem_cons_self _ _))
    (List.mem_cons_self _ _)

/-- C6: a directory whose exclusion marker lists entry name `x` contributes no
repository under `x`'s subtree, regardless of whether `x` is itself a
repository root and regardless of where in the listing the marker appears;
moreover the marker only filters this directory's own children: each
non-excluded child directory is scanned by the plain recursive call, unaffected
by the marker. -/
theorem marker_excludes_subtree (path : List (List Char))
    (children : List (Option (List Char) × FsObj))
    (content : List Char) (x : List Char)
    (hm : (some ignoreName, FsObj.file content) ∈ children)
    (huniq : ∀ c2, (some ignoreName, FsObj.file c2) ∈ children → c2 = content)
    (hx : x ∈ rustLinesL content) :
    (∀ q ∈ discover path (FsObj.dir children), ¬ (path ++ [x]) <+: q)
    ∧ (∀ ds ps, scanChildren children = some (ds, ps) →
        ps = some (rustLinesL content)
        ∧ discover path (FsObj.dir children)
          = ((ds.filter (fun e => !(rustLinesL content).contains e.1)).map
              (fun e => discover (path ++ [e.1]) e.2)).flatten) := by
  have key : ∀ ds ps, scanChildren children = some (ds, ps) →
      ps = some (rustLinesL content) := by
    intro ds ps h
    have hsome := scanChildren_patterns_isSome hm h
    cases hps : ps with
    | none => rw [hps] at hsome; cases hsome
    | some ps0 =>
      obtain ⟨c, hc, hpc⟩ := scanChildren_patterns_source (hps ▸ h)
      rw [huniq c hc] at hpc
      rw [hpc]
  constructor
  · intro q hq hpre
    cases hsc : scanChildren children with
    | none =>
      rw [discover_dir_none path children hsc] at hq
      rcases List.mem_singleton.mp hq with rfl
      have := hpre.length_le
      simp at this
    | some sc =>
      obtain ⟨ds, ps⟩ := sc
      have hps := key ds ps hsc
      subst hps
      rw [discover_dir_some path children _ hsc] at hq
      rw [List.mem_flatten] at hq
      obtain ⟨l2, hl2, hql⟩ := hq
      rw [List.mem_map] at hl2
      obtain ⟨e, he, rfl⟩ := hl2
      have hepre : (path ++ [e.1]) <+: q := discover_prefix _ _ q hql
      have hlen : (path ++ [x]).length = (path ++ [e.1]).length := by simp
      have heq : (path ++ [x]) = (path ++ [e.1]) :=
        (List.prefix_of_prefix_length_le hpre hepre (le_of_eq hlen)).eq_of_length hlen
      have hxe : x = e.1 := by
        have := List.append_cancel_left heq
        injection this
      have hnotin : e.1 ∉ rustLinesL content := by
        unfold filterIgnored at he
        simp only at he
        have := List.of_mem_filter he
        simpa using this
      rw [← hxe] at hnotin
      exact hnotin hx
  · intro ds ps hsc
    have hps := key ds ps hsc
    refine ⟨hps, ?_⟩
    subst hps
    rw [discover_dir_some path children _ hsc]
    rfl

/-- A one-repository directory (contains only a `.git` child). -/
def dRepo : FsObj := FsObj.dir [(some gitName, FsObj.dir [])]

/-- A directory listing with repositories `x` and `y` and a marker whose
single line is `x`. -/
def childrenC6 : List (Option (List Char) × FsObj) :=
  [(some (chars "x"), dRepo),
   (some ignoreName, FsObj.file (chars "x\n")),
   (some (chars "y"), dRepo)]

/-- Witness for C6: in a directory with repository children `x` and `y` and
a marker listing `x`, the scan finds `r/y` (so `r/x` is not a prefix of it). -/
theorem marker_excludes_subtree_witness :
    ¬ ([chars "r"] ++ [chars "x"]) <+: [chars "r", chars "y"] := by
  have huniq : ∀ c2,
      ((some ignoreName, FsObj.file c2) ∈ childrenC6) →
      c2 = chars "x\n" := by
    intro c2 hc2
    rcases List.mem_cons.mp hc2 with h | h2
    · injection h with h1 h2
      exact absurd (by injection h1 : ignoreName = chars "x") (by decide)
    · rcases List.mem_cons.mp h2 with h | h3
      · injection h with h1 h2
        injection h2 with h3
      · rcases List.mem_cons.mp h3 with h | h4
        · injection h with h1 h2
          exact absurd (by injection h1 : ignoreName = chars "y") (by decide)
        · cases h4
  have hev : discover [chars "r"] (FsObj.dir childrenC6)
      = [[chars "r", chars "y"]] := by
    rw [discover_dir_some [chars "r"] childrenC6
      ([(chars "x", dRepo), (chars "y", dRepo)], some [chars "x"]) rfl]
    rw [show filterIgnored
        ([(chars "x", dRepo), (chars "y", dRepo)], some [chars "x"])
        = [(chars "y", dRepo)] from rfl]
    simp only [List.map_cons, List.map_nil]
    rw [show dRepo = FsObj.dir [(some gitName, FsObj.dir [])] from rfl]
    rw [discover_dir_none ([chars "r"] ++ [chars "y"])
      [(some gitName, FsObj.dir [])] rfl]
    rfl
  have hmem : [chars "r", chars "y"]
      ∈ discover [chars "r"] (FsObj.dir childrenC6) := by
    rw [hev]
    exact List.mem_singleton.mpr rfl
  exact (marker_excludes_subtree [chars "r"] childrenC6 (chars "x\n") (chars "x")
    (List.mem_cons_of_mem _ (List.mem_cons_self _ _)) huniq (by decide)).1
    [chars "r", chars "y"] hmem

/-! ## Fetch command (src/main.rs lines 242-281)

The loop body per repository: `Repository::open(..)?`, a `fetching` print,
branch enumeration, remote-name enumeration, then per remote
`find_remote(..)?` followed by `remote.fetch(&branches, None, None)`, whose
error (if any) is printed and swallowed.  The source contains no subprocess
invocation at all (no `std::process` use anywhere in the crate); the
`externalCommand` event constructor exists only so that claims about an
external fetch fallback can be stated, and no embedded function emits it. -/

/-- One item of `repository.branches(Some(BranchType::Local))`: the outer
`Except` is the per-item iterator `Result` (an `Err` item is skipped by the
`filter_map`), the inner `Except` is `Branch::name()`'s `Result`, and the
`Option` is its `Option<&str>` (`none` = name not valid text).  The code calls
`.name().unwrap().unwrap()` on every `Ok` item. -/
abbrev BranchEntry := Except Unit (Except Unit (Option (List Char)))

/-- The branch-name collection of the fetch command (src/main.rs lines
251-258): `Err` items are dropped by the `filter_map`; an `Ok` item whose
name lookup fails or is not text hits `.unwrap()` and panics (modelled by the
result `none`). -/
def collectBranches : List BranchEntry → Option (List (List Char))
  | [] => some []
  | Except.error _ :: rest => collectBranches rest
  | Except.ok nameRes :: rest =>
    match nameRes with
    | Except.error _ => none
    | Except.ok none => none
    | Except.ok (some n) => (collectBranches rest).map (fun l => n :: l)

/-- What `Repository::find_remote` returns in the model: the remote's
`name()` (`none` = not valid text; it is unwrapped inside the failure print)
and the outcome of `remote.fetch(&branches, None, None)` (`some e` = the
direct fetch failed with message `e`). -/
structure RemoteData where
  name : Option (List Char)
  fetchError : Option (List Char)

/-- Observable events of the fetch command, in program order. -/
inductive FetchEvent where
  | fetchingRepo (path : List Char)
  | directFetch (branches : List (List Char)) (remote : List Char)
  | printFailure (branches : List (List Char)) (remote : List Char)
      (error : List Char)
  | externalCommand (remote : List Char)
deriving Repr, DecidableEq

/-- The per-remote loop of the fetch command (src/main.rs lines 268-279):
`find_remote` failure aborts the whole command via `?`; a direct-fetch
failure is printed (panicking if the remote's name is not text, because of
`remote.name().unwrap()`) and the loop continues with the next remote.  No
fallback of any kind is attempted. -/
def remoteLoop (branches : List (List Char))
    (find : List Char → Except (List Char) RemoteData) :
    List (List Char) → Option (Except (List Char) (List FetchEvent))
  | [] => some (Except.ok [])
  | n :: rest =>
    match find n with
    | Except.error e => some (Except.error e)
    | Except.ok rd =>
      match rd.fetchError with
      | none =>
        (remoteLoop branches find rest).map
          (fun r => r.map (fun t => FetchEvent.directFetch branches n :: t))
      | some err =>
        match rd.name with
        | none => none
        | some rn =>
          (remoteLoop branches find rest).map
            (fun r => r.map (fun t =>
              FetchEvent.directFetch branches n ::
                FetchEvent.printFailure branches rn err :: t))

/-- What `Repository::open` yields in the model, for the fetch command:
the branch iterator (or the failure of the `branches(..)` call itself), the
remote-name array (or the failure of the `remotes()` call; a `none` entry is
a non-text remote name, dropped by the `filter_map` in lines 259-266), and
the `find_remote` lookup. -/
structure RepoFetchData where
  branchEntries : Except (List Char) (List BranchEntry)
  remoteNames : Except (List Char) (List (Option (List Char)))
  findRemote : List Char → Except (List Char) RemoteData

/-- The fetch command (src/main.rs lines 242-281): iterate over **all** known
repositories (the `all_known_repositories` set, line 244), open each (`?`),
enumerate branches and remotes, and run the per-remote loop.  The outer
`Option` is `none` when some `.unwrap()` panicked; the `Except` carries the
`?`-propagated failure that aborts the command. -/
def runFetch (known : List (List Char))
    (openRepo : List Char → Except (List Char) RepoFetchData) :
    Option (Except (List Char) (List FetchEvent)) :=
  match known with
  | [] => some (Except.ok [])
  | p :: rest =>
    match openRepo p with
    | Except.error e => some (Except.error e)
    | Except.ok rd =>
      match rd.branchEntries with
      | Except.error e => some (Except.error e)
      | Except.ok bes =>
        match collectBranches bes with
        | none => none
        | some branches =>
          match rd.remoteNames with
          | Except.error e => some (Except.error e)
          | Except.ok rns =>
            match remoteLoop branches rd.findRemote (rns.filterMap id) with
            | none => none
            | some (Except.error e) => some (Except.error e)
            | some (Except.ok t) =>
              match runFetch rest openRepo with
              | none => none
              | some (Except.error e) => some (Except.error e)
              | some (Except.ok t2) =>
                some (Except.ok (FetchEvent.fetchingRepo p :: t ++ t2))

/-- Is an event an external fetch-command invocation? -/
def isExternalCommand : FetchEvent → Bool
  | FetchEvent.externalCommand _ => true
  | _ => false

/-- The repository path of a `fetchingRepo` event. -/
def fetchingRepoPath : FetchEvent → Option (List Char)
  | FetchEvent.fetchingRepo p => some p
  | _ => none

/-- The remote name of a `directFetch` event. -/
def directFetchRemote : FetchEvent → Option (List Char)
  | FetchEvent.directFetch _ r => some r
  | _ => none

/-! ## Status command (src/main.rs lines 282-308) -/

/-- The states of `git2::RepositoryState`; everything except `Clean` is an
in-progress stateful operation. -/
inductive RepositoryState where
  | Clean
  | Merge
  | Revert
  | RevertSequence
  | CherryPick
  | CherryPickSequence
  | Bisect
  | Rebase
  | RebaseInteractive
  | RebaseMerge
  | ApplyMailbox
  | ApplyMailboxOrRebase
deriving Repr, DecidableEq

/-- One entry of `repository.statuses(None)`, reduced to the only field the
code consults: whether `status().is_ignored()` holds. -/
structure StatusEntry where
  isIgnored : Bool
deriving Repr, DecidableEq

/-- The per-repository classification of the status command (src/main.rs
lines 290-307): `state_clean` is `state() == Clean`; `status_clean` counts
the non-ignored status entries; an unclean repository is reported with that
count (`some count`), a clean one is not reported (`none`). -/
def statusReport (state : RepositoryState) (entries : List StatusEntry) :
    Option Nat :=
  let state_clean := match state with
    | RepositoryState.Clean => true
    | _ => false
  let status_clean := (entries.filter (fun s => !s.isIgnored)).length
  if !state_clean || status_clean != 0 then some status_clean else none

/-- What `Repository::open` yields in the model, for the status command. -/
structure RepoStatusData where
  state : RepositoryState
  statuses : Except (List Char) (List StatusEntry)

/-- Observable events of the status command, in program order. -/
inductive StatusEvent where
  | openRepo (path : List Char)
  | reportUnclean (path : List Char) (count : Nat)
deriving Repr, DecidableEq

/-- The status command (src/main.rs lines 282-308): iterate over **all**
known repositories (line 283), open each (`?`), read `state()` and
`statuses(None)?`, and print a report for each unclean repository. -/
def runStatus (known : List (List Char))
    (openRepo : List Char → Except (List Char) RepoStatusData) :
    Except (List Char) (List StatusEvent) :=
  match known with
  | [] => Except.ok []
  | p :: rest =>
    match openRepo p with
    | Except.error e => Except.error e
    | Except.ok rd =>
      match rd.statuses with
      | Except.error e => Except.error e
      | Except.ok entries =>
        (runStatus rest openRepo).map (fun t =>
          StatusEvent.openRepo p ::
            ((match statusReport rd.state entries with
              | some n => [StatusEvent.reportUnclean p n]
              | none => []) ++ t))

/-- The repository path of an `openRepo` event. -/
def openRepoPath : StatusEvent → Option (List Char)
  | StatusEvent.openRepo p => some p
  | _ => none

/-! ## Helper lemmas about the fetch loop -/

/-- The events one remote contributes when the loop body completes. -/
def remoteEventsOf (branches : List (List Char)) (n : List Char) :
    Except (List Char) RemoteData → List FetchEvent
  | Except.error _ => []
  | Except.ok rd =>
    match rd.fetchError with
    | none => [FetchEvent.directFetch branches n]
    | some err =>
      [FetchEvent.directFetch branches n,
       FetchEvent.printFailure branches (rd.name.getD []) err]

/-- The exact event sequence the per-remote loop produces when it completes
without abort or panic. -/
def expectedRemoteEvents (branches : List (List Char))
    (find : List Char → Except (List Char) RemoteData) :
    List (List Char) → List FetchEvent
  | [] => []
  | n :: rest =>
    remoteEventsOf branches n (find n) ++ expectedRemoteEvents branches find rest

theorem remoteLoop_ok_eq {branches : List (List Char)}
    {find : List Char → Except (List Char) RemoteData} :
    ∀ {ns : List (List Char)} {t : List FetchEvent},
      remoteLoop branches find ns = some (Except.ok t) →
      t = expectedRemoteEvents branches find ns := by
  intro ns
  induction ns with
  | nil =>
    intro t h
    simp only [remoteLoop, Option.some.injEq, Except.ok.injEq] at h
    rw [← h]
    rfl
  | cons n rest ih =>
    intro t h
    cases hf : find n with
    | error e =>
      simp only [remoteLoop, hf] at h
      cases h
    | ok rd =>
      cases hfe : rd.fetchError with
      | none =>
        cases hrl : remoteLoop branches find rest with
        | none =>
          simp only [remoteLoop, hf, hfe, hrl, Option.map_none'] at h
          cases h
        | some r =>
          cases r with
          | error e =>
            simp only [remoteLoop, hf, hfe, hrl, Option.map_some', Except.map] at h
            cases h
          | ok t' =>
            simp only [remoteLoop, hf, hfe, hrl, Option.map_some', Except.map,
              Option.some.injEq, Except.ok.injEq] at h
            rw [← h]
            simp [expectedRemoteEvents, remoteEventsOf, hf, hfe, ih hrl]
      | some err =>
        cases hn : rd.name with
        | none =>
          simp only [remoteLoop, hf, hfe, hn] at h
          cases h
        | some rn =>
          cases hrl : remoteLoop branches find rest with
          | none =>
            simp only [remoteLoop, hf, hfe, hn, hrl, Option.map_none'] at h
            cases h
          | some r =>
            cases r with
            | error e =>
              simp only [remoteLoop, hf, hfe, hn, hrl, Option.map_some',
                Except.map] at h
              cases h
            | ok t' =>
              simp only [remoteLoop, hf, hfe, hn, hrl, Option.map_some', Except.map,
                Option.some.injEq, Except.ok.injEq] at h
              rw [← h]
              simp [expectedRemoteEvents, remoteEventsOf, hf, hfe, hn, ih hrl]

theorem expectedRemoteEvents_no_external (branches : List (List Char))
    (find : List Char → Except (List Char) RemoteData)
    (ns : List (List Char)) :
    (expectedRemoteEvents branches find ns).filter isExternalCommand = [] := by
  induction ns with
  | nil => rfl
  | cons n rest ih =>
    unfold expectedRemoteEvents
    rw [List.filter_append, ih]
    cases hf : find n with
    | error e => rfl
    | ok rd =>
      cases hfe : rd.fetchError <;> simp [remoteEventsOf, hfe, isExternalCommand]

theorem expectedRemoteEvents_no_repo (branches : List (List Char))
    (find : List Char → Except (List Char) RemoteData)
    (ns : List (List Char)) :
    (expectedRemoteEvents branches find ns).filterMap fetchingRepoPath = [] := by
  induction ns with
  | nil => rfl
  | cons n rest ih =>
    unfold expectedRemoteEvents
    rw [List.filterMap_append, ih]
    cases hf : find n with
    | error e => rfl
    | ok rd =>
      cases hfe : rd.fetchError <;> simp [remoteEventsOf, hfe, fetchingRepoPath]

theorem remoteLoop_ok_finds {branches : List (List Char)}
    {find : List Char → Except (List Char) RemoteData} :
    ∀ {ns : List (List Char)} {t : List FetchEvent},
      remoteLoop branches find ns = some (Except.ok t) →
      ∀ n ∈ ns, ∃ rd, find n = Except.ok rd := by
  intro ns
  induction ns with
  | nil => intro t _ n hn; cases hn
  | cons m rest ih =>
    intro t h n hn
    cases hf : find m with
    | error e =>
      simp only [remoteLoop, hf] at h
      cases h
    | ok rd =>
      rcases List.mem_cons.mp hn with rfl | hrest
      · exact ⟨rd, hf⟩
      · cases hfe : rd.fetchError with
        | none =>
          cases hrl : remoteLoop branches find rest with
          | none =>
            simp only [remoteLoop, hf, hfe, hrl, Option.map_none'] at h
            cases h
          | some r =>
            cases r with
            | error e =>
              simp only [remoteLoop, hf, hfe, hrl, Option.map_some',
                Except.map] at h
              cases h
            | ok t' => exact ih hrl n hrest
        | some err =>
          cases hnm : rd.name with
          | none =>
            simp only [remoteLoop, hf, hfe, hnm] at h
            cases h
          | some rn =>
            cases hrl : remoteLoop branches find rest with
            | none =>
              simp only [remoteLoop, hf, hfe, hnm, hrl, Option.map_none'] at h
              cases h
            | some r =>
              cases r with
              | error e =>
                simp only [remoteLoop, hf, hfe, hnm, hrl, Option.map_some',
                  Except.map] at h
                cases h
              | ok t' => exact ih hrl n hrest

theorem expectedRemoteEvents_direct {branches : List (List Char)}
    {find : List Char → Except (List Char) RemoteData} :
    ∀ {ns : List (List Char)},
      (∀ n ∈ ns, ∃ rd, find n = Except.ok rd) →
      (expectedRemoteEvents branches find ns).filterMap directFetchRemote
        = ns := by
  intro ns
  induction ns with
  | nil => intro _; rfl
  | cons n rest ih =>
    intro hok
    unfold expectedRemoteEvents
    rw [List.filterMap_append, ih (fun m hm => hok m (List.mem_cons_of_mem _ hm))]
    obtain ⟨rd, hf⟩ := hok n (List.mem_cons_self _ _)
    rw [hf]
    cases hfe : rd.fetchError <;>
      simp [remoteEventsOf, hfe, directFetchRemote]

theorem expectedRemoteEvents_failure_mem {branches : List (List Char)}
    {find : List Char → Except (List Char) RemoteData}
    {ns : List (List Char)} {n rn err : List Char} {rd : RemoteData}
    (hmem : n ∈ ns) (hf : find n = Except.ok rd)
    (hfe : rd.fetchError = some err) (hn : rd.name = some rn) :
    FetchEvent.printFailure branches rn err ∈
      expectedRemoteEvents branches find ns := by
  induction ns with
  | nil => cases hmem
  | cons m rest ih =>
    unfold expectedRemoteEvents
    rw [List.mem_append]
    rcases List.mem_cons.mp hmem with rfl | hrest
    · left
      rw [hf]
      simp [remoteEventsOf, hfe, hn]
    · right
      exact ih hrest

theorem runFetch_ok_shape
    {openRepo : List Char → Except (List Char) RepoFetchData} :
    ∀ {known : List (List Char)} {T : List FetchEvent},
      runFetch known openRepo = some (Except.ok T) →
      T.filterMap fetchingRepoPath = known
      ∧ T.filter isExternalCommand = [] := by
  intro known
  induction known with
  | nil =>
    intro T h
    simp only [runFetch, Option.some.injEq, Except.ok.injEq] at h
    rw [← h]
    exact ⟨rfl, rfl⟩
  | cons p rest ih =>
    intro T h
    cases ho : openRepo p with
    | error e =>
      simp only [runFetch, ho] at h
      cases h
    | ok rd =>
      cases hb : rd.branchEntries with
      | error e =>
        simp only [runFetch, ho, hb] at h
        cases h
      | ok bes =>
        cases hcb : collectBranches bes with
        | none =>
          simp only [runFetch, ho, hb, hcb] at h
          cases h
        | some branches =>
          cases hrn : rd.remoteNames with
          | error e =>
            simp only [runFetch, ho, hb, hcb, hrn] at h
            cases h
          | ok rns =>
            cases hrl : remoteLoop branches rd.findRemote (rns.filterMap id) with
            | none =>
              simp only [runFetch, ho, hb, hcb, hrn, hrl] at h
              cases h
            | some r =>
              cases r with
              | error e =>
                simp only [runFetch, ho, hb, hcb, hrn, hrl] at h
                cases h
              | ok t =>
                cases hrf : runFetch rest openRepo with
                | none =>
                  simp only [runFetch, ho, hb, hcb, hrn, hrl, hrf] at h
                  cases h
                | some r2 =>
                  cases r2 with
                  | error e =>
                    simp only [runFetch, ho, hb, hcb, hrn, hrl, hrf] at h
                    cases h
                  | ok t2 =>
                    simp only [runFetch, ho, hb, hcb, hrn, hrl, hrf,
                      Option.some.injEq, Except.ok.injEq] at h
                    rw [← h]
                    have hte := remoteLoop_ok_eq hrl
                    obtain ⟨ih1, ih2⟩ := ih hrf
                    constructor
                    · simp only [List.filterMap_cons, List.filterMap_append,
                        fetchingRepoPath]
                      rw [hte, expectedRemoteEvents_no_repo, ih1]
                      rfl
                    · simp only [List.filter_cons, List.filter_append,
                        isExternalCommand]
                      rw [hte, expectedRemoteEvents_no_external, ih2]
                      rfl

theorem runStatus_ok_opens
    {openRepo : List Char → Except (List Char) RepoStatusData} :
    ∀ {known : List (List Char)} {t : List StatusEvent},
      runStatus known openRepo = Except.ok t →
      t.filterMap openRepoPath = known := by
  intro known
  induction known with
  | nil =>
    intro t h
    simp only [runStatus, Except.ok.injEq] at h
    rw [← h]
    rfl
  | cons p rest ih =>
    intro t h
    cases ho : openRepo p with
    | error e =>
      simp only [runStatus, ho] at h
      cases h
    | ok rd =>
      cases hs : rd.statuses with
      | error e =>
        simp only [runStatus, ho, hs] at h
        cases h
      | ok entries =>
        cases hr : runStatus rest openRepo with
        | error e =>
          simp only [runStatus, ho, hs, hr, Except.map] at h
          cases h
        | ok t' =>
          simp only [runStatus, ho, hs, hr, Except.map, Except.ok.injEq] at h
          rw [← h]
          simp only [List.filterMap_cons, List.filterMap_append, openRepoPath]
          rw [ih hr]
          cases statusReport rd.state entries <;> simp [openRepoPath]

/-! ## Concrete inputs used in counterexamples and witnesses -/

/-- A registry entry outside the working directory used below. -/
def outsidePath : List Char := chars "/data/repo"

/-- The working directory string used below. -/
def cwdChars : List Char := chars "/home/user"

/-- A trivially clean repository for the status command. -/
def statusOpen0 : List Char → Except (List Char) RepoStatusData :=
  fun _ => Except.ok ⟨RepositoryState.Clean, Except.ok []⟩

/-- A repository with no branches and no remotes for the fetch command. -/
def fetchOpen0 : List Char → Except (List Char) RepoFetchData :=
  fun _ => Except.ok ⟨Except.ok [], Except.ok [], fun _ => Except.error []⟩

/-- A repository with one local branch `main` and remotes `o1`, `o2`, where
the direct fetch from `o1` fails with message `err` and the one from `o2`
succeeds. -/
def fetchOpen1 : List Char → Except (List Char) RepoFetchData :=
  fun _ => Except.ok
    ⟨Except.ok [Except.ok (Except.ok (some (chars "main")))],
     Except.ok [some (chars "o1"), some (chars "o2")],
     fun n => Except.ok
       ⟨some n, if n = chars "o1" then some (chars "err") else none⟩⟩

/-- The event trace the fetch command produces on `fetchOpen1`. -/
def fetchTrace1 : List FetchEvent :=
  [FetchEvent.fetchingRepo (chars "r"),
   FetchEvent.directFetch [chars "main"] (chars "o1"),
   FetchEvent.printFailure [chars "main"] (chars "o1") (chars "err"),
   FetchEvent.directFetch [chars "main"] (chars "o2")]

/-- A repository whose branch listing has one `Ok` entry with a
non-text name, for the panic counterexample. -/
def fetchOpen2 : List Char → Except (List Char) RepoFetchData :=
  fun _ => Except.ok
    ⟨Except.ok [Except.ok (Except.ok none)],
     Except.ok [], fun _ => Except.error []⟩

/-! ## C1 -/

/-- C1 counterexample: the claim says that when the direct in-process fetch
of a remote fails, the external fetch command is invoked exactly once for
that remote.  On a registry with one repository whose remote `o1` fails its
direct fetch, the command completes with a trace holding **zero** external
invocations (the code has no fallback); the failure is printed and the next
remote `o2` is still fetched directly. -/
theorem fetch_external_fallback_counterexample :
    runFetch [chars "r"] fetchOpen1 = some (Except.ok fetchTrace1)
    ∧ fetchTrace1.filter isExternalCommand = []
    ∧ ¬ (fetchTrace1.filter isExternalCommand).length = 1
    ∧ FetchEvent.printFailure [chars "main"] (chars "o1") (chars "err")
        ∈ fetchTrace1
    ∧ FetchEvent.directFetch [chars "main"] (chars "o2") ∈ fetchTrace1 := by
  refine ⟨rfl, by decide, by decide, by decide, by decide⟩

/-- C1 amended: when the direct fetch of a remote fails, **no** external
fetch command is invoked (the code has no fallback of any kind); the failure
is reported inline as a named diagnostic (`printFailure` with the remote's
name and the error), the loop continues with the remaining remotes (each
enumerated remote gets exactly one direct fetch attempt), and a completed
fetch command processes every repository of the registry with no external
invocation. -/
theorem fetch_failure_reported_no_fallback :
    (∀ (branches : List (List Char)) find (ns : List (List Char)) t,
      remoteLoop branches find ns = some (Except.ok t) →
      t.filter isExternalCommand = []
      ∧ t.filterMap directFetchRemote = ns
      ∧ (∀ n rd err rn, n ∈ ns → find n = Except.ok rd →
          rd.fetchError = some err → rd.name = some rn →
          FetchEvent.printFailure branches rn err ∈ t))
    ∧ (∀ (known : List (List Char)) openRepo T,
        runFetch known openRepo = some (Except.ok T) →
        T.filter isExternalCommand = []
        ∧ T.filterMap fetchingRepoPath = known) := by
  constructor
  · intro branches find ns t h
    have ht := remoteLoop_ok_eq h
    subst ht
    refine ⟨expectedRemoteEvents_no_external branches find ns, ?_, ?_⟩
    · exact expectedRemoteEvents_direct (remoteLoop_ok_finds h)
    · intro n rd err rn hmem hf hfe hn
      exact expectedRemoteEvents_failure_mem hmem hf hfe hn
  · intro known openRepo T h
    obtain ⟨h1, h2⟩ := runFetch_ok_shape h
    exact ⟨h2, h1⟩

/-- Witness for C1's amended theorem, on the concrete failing-remote input:
the produced remote-loop trace holds no external invocation. -/
theorem fetch_failure_reported_no_fallback_witness :
    ([FetchEvent.directFetch [chars "main"] (chars "o1"),
      FetchEvent.printFailure [chars "main"] (chars "o1") (chars "err"),
      FetchEvent.directFetch [chars "main"] (chars "o2")].filter
        isExternalCommand) = [] :=
  (fetch_failure_reported_no_fallback.1 [chars "main"]
    (fun n => Except.ok
      ⟨some n, if n = chars "o1" then some (chars "err") else none⟩)
    [chars "o1", chars "o2"] _ rfl).1

/-! ## C2 -/

/-- C2 counterexample: the claim says the status and fetch commands only
touch registry entries whose path has the working directory as a string
prefix.  With working directory `/home/user` and the single registry entry
`/data/repo` (not prefixed by it), the status command opens that repository
and the fetch command fetches it. -/
theorem scope_restriction_counterexample :
    cwdChars.isPrefixOf outsidePath = false
    ∧ runStatus [outsidePath] statusOpen0
        = Except.ok [StatusEvent.openRepo outsidePath]
    ∧ runFetch [outsidePath] fetchOpen0
        = some (Except.ok [FetchEvent.fetchingRepo outsidePath]) := by
  refine ⟨by decide, rfl, rfl⟩

/-- C2 amended: the status and fetch commands iterate over the **entire**
Known Registry (`all_known_repositories`), not the Working-Directory Scope:
whenever either command completes, the repositories it opened are exactly
the registry entries, in order, regardless of any working-directory
prefix. -/
theorem status_fetch_iterate_whole_registry :
    (∀ (known : List (List Char)) openRepo t,
        runStatus known openRepo = Except.ok t →
        t.filterMap openRepoPath = known)
    ∧ (∀ (known : List (List Char)) openRepo T,
        runFetch known openRepo = some (Except.ok T) →
        T.filterMap fetchingRepoPath = known) := by
  constructor
  · intro known openRepo t h
    exact runStatus_ok_opens h
  · intro known openRepo T h
    exact (runFetch_ok_shape h).1

/-- Witness for C2's amended theorem: the status command over the registry
`[/data/repo]` opens exactly `/data/repo`. -/
theorem status_fetch_iterate_whole_registry_witness :
    ([StatusEvent.openRepo outsidePath].filterMap openRepoPath)
      = [outsidePath] :=
  status_fetch_iterate_whole_registry.1 [outsidePath] statusOpen0
    [StatusEvent.openRepo outsidePath] rfl

/-! ## C7 -/

/-- The branch name an `Ok` listing entry contributes, `none` for a dropped
`Err` entry. -/
def entryName : BranchEntry → Option (List Char)
  | Except.ok (Except.ok (some n)) => some n
  | _ => none

/-- Does this listing entry make `.name().unwrap().unwrap()` panic? -/
def entryPanics : BranchEntry → Bool
  | Except.ok (Except.error _) => true
  | Except.ok (Except.ok none) => true
  | _ => false

/-- C7 counterexample: the claim says the per-item branch enumeration never
panics or aborts the command because of a single bad entry.  A single branch
entry that resolves (`Ok`) but whose name is not representable as text makes
`.name().unwrap().unwrap()` panic: the collection — and the whole fetch
command — dies (modelled by `none`). -/
theorem branch_enumeration_panic_counterexample :
    collectBranches [Except.ok (Except.ok none)] = none
    ∧ runFetch [chars "r"] fetchOpen2 = none := by
  refine ⟨rfl, rfl⟩

/-- C7 amended: branch-listing entries that fail to resolve (an `Err` item of
the iterator) are silently dropped, and directory entries with non-text names
are silently skipped by the scanner; however a branch entry that resolves
while its name is unavailable or non-text panics, so the enumeration is
panic-free only for inputs with no such entry. -/
theorem best_effort_enumeration :
    (∀ l : List BranchEntry, (∀ e ∈ l, entryPanics e = false) →
        collectBranches l = some (l.filterMap entryName))
    ∧ (∀ (path : List (List Char)) (obj : FsObj)
          (rest : List (Option (List Char) × FsObj)),
        discover path (FsObj.dir ((none, obj) :: rest))
          = discover path (FsObj.dir rest)) := by
  constructor
  · intro l hl
    induction l with
    | nil => rfl
    | cons e rest ih =>
      have hrest := ih (fun e2 he2 => hl e2 (List.mem_cons_of_mem _ he2))
      have he := hl e (List.mem_cons_self _ _)
      match e with
      | Except.error u =>
        simp only [collectBranches, hrest]
        rfl
      | Except.ok (Except.error u) => simp [entryPanics] at he
      | Except.ok (Except.ok none) => simp [entryPanics] at he
      | Except.ok (Except.ok (some n)) =>
        simp only [collectBranches, hrest, Option.map_some']
        rfl
  · intro path obj rest
    cases hsc : scanChildren rest with
    | none =>
      rw [discover_dir_none _ _ (by rw [scanChildren_cons_none, hsc]),
        discover_dir_none _ _ hsc]
    | some sc =>
      rw [discover_dir_some _ _ _ (by rw [scanChildren_cons_none, hsc]),
        discover_dir_some _ _ _ hsc]

/-- Witness for C7's amended theorem: a listing with one `Err` item and one
good item collects exactly the good item's name. -/
theorem best_effort_enumeration_witness :
    collectBranches
        [Except.error (), Except.ok (Except.ok (some (chars "main")))]
      = some ([Except.error (),
          Except.ok (Except.ok (some (chars "main")))].filterMap entryName) :=
  best_effort_enumeration.1
    [Except.error (), Except.ok (Except.ok (some (chars "main")))]
    (by decide)

/-! ## C9 -/

/-- C9: a repository is classified clean exactly when its state is `Clean`
(no merge, rebase, cherry-pick, bisect or revert in progress) and it has zero
non-ignored status entries; an unclean repository is reported with the count
of its non-ignored entries. -/
theorem status_classification (state : RepositoryState)
    (entries : List StatusEntry) :
    (statusReport state entries = none ↔
      state = RepositoryState.Clean
        ∧ (entries.filter (fun s => !s.isIgnored)).length = 0)
    ∧ (∀ n, statusReport state entries = some n →
        n = (entries.filter (fun s => !s.isIgnored)).length) := by
  unfold statusReport
  cases state <;>
    by_cases hz : (entries.filter (fun s => !s.isIgnored)).length = 0 <;>
    simp [hz]

/-- Witness for C9: a repository with clean state and no entries is not
reported; one with a single changed non-ignored entry is reported with
count 1. -/
theorem status_classification_witness :
    statusReport RepositoryState.Clean [] = none
    ∧ (1 : Nat)
        = ([({ isIgnored := false } : StatusEntry)].filter
            (fun s => !s.isIgnored)).length :=
  ⟨(status_classification RepositoryState.Clean []).1.mpr ⟨rfl, rfl⟩,
   (status_classification RepositoryState.Clean
      [{ isIgnored := false }]).2 1 (by decide)⟩

/-! ## Registry store and reconciler (src/main.rs lines 125-139, 160-240,
323-332)

The in-memory `BTreeSet<String>` is modelled as a duplicate-free list with
membership-guarded insertion and removal; every property stated about it is
order-independent (via `toFinset`), so the tree's iteration order is not
modelled. -/

/-- `BTreeSet::insert`: adds the element unless already present. -/
def setInsert (l : List (List Char)) (x : List Char) : List (List Char) :=
  if x ∈ l then l else l ++ [x]

/-- `BTreeSet::remove`: drops the element. -/
def setRemove (l : List (List Char)) (x : List Char) : List (List Char) :=
  l.filter (fun y => y ≠ x)

theorem mem_setInsert {l : List (List Char)} {x y : List Char} :
    y ∈ setInsert l x ↔ y ∈ l ∨ y = x := by
  unfold setInsert
  by_cases h : x ∈ l
  · rw [if_pos h]
    constructor
    · exact Or.inl
    · rintro (hy | rfl)
      · exact hy
      · exact h
  · rw [if_neg h]
    simp

theorem mem_setRemove {l : List (List Char)} {x y : List Char} :
    y ∈ setRemove l x ↔ y ∈ l ∧ y ≠ x := by
  unfold setRemove
  simp

theorem mem_insertAll {l : List (List Char)} :
    ∀ {acc : List (List Char)} {y : List Char},
      y ∈ l.foldl setInsert acc ↔ y ∈ acc ∨ y ∈ l := by
  induction l with
  | nil => intro acc y; simp
  | cons p rest ih =>
    intro acc y
    rw [List.foldl_cons, ih, mem_setInsert]
    simp only [List.mem_cons]
    tauto

theorem mem_removeAll {l : List (List Char)} :
    ∀ {acc : List (List Char)} {y : List Char},
      y ∈ l.foldl setRemove acc ↔ y ∈ acc ∧ y ∉ l := by
  induction l with
  | nil => intro acc y; simp
  | cons p rest ih =>
    intro acc y
    rw [List.foldl_cons, ih, mem_setRemove]
    simp only [List.mem_cons]
    tauto

/-- The serialization of the registry (src/main.rs lines 325-329): each entry
followed by one line feed, concatenated in iteration order. -/
def serializeRegistry (l : List (List Char)) : List Char :=
  l.foldl (fun acc p => acc ++ p ++ ['\n']) []

/-- `load_known_repositories` (src/main.rs lines 125-139) applied to the file
contents: split into lines and insert each into the fresh set (an absent file
is the empty contents). -/
def loadRegistry (content : List Char) : List (List Char) :=
  (rustLinesL content).foldl setInsert []

theorem mem_loadRegistry {content : List Char} {y : List Char} :
    y ∈ loadRegistry content ↔ y ∈ rustLinesL content := by
  unfold loadRegistry
  rw [mem_insertAll]
  simp

/-- The scope filter of `main` (src/main.rs lines 162-171): known entries
whose path has the working-directory string as a prefix. -/
def scopeFilter (wd : List Char) (known : List (List Char)) :
    List (List Char) :=
  known.filter (fun p => wd.isPrefixOf p)

/-- Outcome of one discovery command run. -/
structure DiscoverResult where
  newRepositories : List (List Char)
  obsoleteRepositories : List (List Char)
  known : List (List Char)
  write : Option (List Char)

/-- The discovery command (src/main.rs lines 177-240 and 323-332) given the
already-computed Discovered Set: New = discovered entries not known in
scope, Obsolete = in-scope entries not discovered; `add` inserts each New
entry (guarded by a whole-registry membership test), `prune` removes each
Obsolete entry; the registry file is rewritten with the serialized final set
exactly when `add` or `prune` was set. -/
def runDiscover (wd : List Char) (known discovered : List (List Char))
    (add prune : Bool) : DiscoverResult :=
  let inWd := scopeFilter wd known
  let newR := discovered.filter (fun p => !(inWd.contains p))
  let obsR := inWd.filter (fun p => !(discovered.contains p))
  let k1 := if add then newR.foldl setInsert known else known
  let k2 := if prune then obsR.foldl setRemove k1 else k1
  ⟨newR, obsR, k2, if add || prune then some (serializeRegistry k2) else none⟩

/-- The command set of the CLI (src/main.rs lines 25-46). -/
inductive Commands where
  | Discover (add : Bool) (prune : Bool)
  | Status
  | Fetch
  | ListCmd (global : Bool)
deriving Repr, DecidableEq

/-- The registry-file write performed at the end of `main` (src/main.rs lines
323-332): only a `Discover` run with `add` or `prune` set writes, with the
serialized final registry; no other command touches the file. -/
def registryWrite (cmd : Commands) (wd : List Char)
    (known discovered : List (List Char)) : Option (List Char) :=
  match cmd with
  | Commands.Discover a p => (runDiscover wd known discovered a p).write
  | _ => none

/-! ## C3 -/

theorem mem_scopeFilter {wd : List Char} {known : List (List Char)}
    {x : List Char} :
    x ∈ scopeFilter wd known ↔ x ∈ known ∧ wd.isPrefixOf x = true := by
  unfold scopeFilter
  simp

theorem runDiscover_known_mem {wd : List Char}
    {known discovered : List (List Char)} {x : List Char} :
    x ∈ (runDiscover wd known discovered true true).known ↔
      ((x ∈ known ∨ (x ∈ discovered ∧ x ∉ scopeFilter wd known))
        ∧ ¬(x ∈ scopeFilter wd known ∧ x ∉ discovered)) := by
  rw [show (runDiscover wd known discovered true true).known
      = ((scopeFilter wd known).filter
          (fun p => !(discovered.contains p))).foldl setRemove
        ((discovered.filter
          (fun p => !((scopeFilter wd known).contains p))).foldl
            setInsert known) from rfl]
  rw [mem_removeAll, mem_insertAll]
  simp only [List.mem_filter]
  constructor
  · rintro ⟨h1, h2⟩
    constructor
    · rcases h1 with h1 | h1
      · exact Or.inl h1
      · exact Or.inr ⟨h1.1, by simpa using h1.2⟩
    · rintro ⟨hs, hnd⟩
      exact h2 ⟨hs, by simpa using hnd⟩
  · rintro ⟨h1, h2⟩
    constructor
    · rcases h1 with h1 | h1
      · exact Or.inl h1
      · exact Or.inr ⟨h1.1, by simpa using h1.2⟩
    · rintro ⟨hs, hnd⟩
      exact h2 ⟨hs, by simpa using hnd⟩

/-- C3: for every previous registry `known`, Working-Directory Scope
`scopeFilter wd known` and Discovered Set `discovered` (all of whose entries
lie under the working directory), a discovery run with both `add` and `prune`
reports New = Discovered − Scope and Obsolete = Scope − Discovered, leaves
the registry equal to (known − Scope) ∪ Discovered as a set, and touches no
entry outside the scope. -/
theorem discover_reconciliation (wd : List Char)
    (known discovered : List (List Char))
    (hD : ∀ p ∈ discovered, wd.isPrefixOf p = true) :
    (runDiscover wd known discovered true true).newRepositories.toFinset
        = discovered.toFinset \ (scopeFilter wd known).toFinset
    ∧ (runDiscover wd known discovered true true).obsoleteRepositories.toFinset
        = (scopeFilter wd known).toFinset \ discovered.toFinset
    ∧ (runDiscover wd known discovered true true).known.toFinset
        = (known.toFinset \ (scopeFilter wd known).toFinset)
            ∪ discovered.toFinset
    ∧ (∀ x, wd.isPrefixOf x = false →
        ((x ∈ (runDiscover wd known discovered true true).known)
          ↔ x ∈ known)) := by
  refine ⟨?_, ?_, ?_, ?_⟩
  · ext x
    simp only [List.mem_toFinset, Finset.mem_sdiff, runDiscover,
      List.mem_filter]
    constructor
    · rintro ⟨h1, h2⟩
      exact ⟨h1, by simpa using h2⟩
    · rintro ⟨h1, h2⟩
      exact ⟨h1, by simpa using h2⟩
  · ext x
    simp only [List.mem_toFinset, Finset.mem_sdiff, runDiscover,
      List.mem_filter]
    constructor
    · rintro ⟨h1, h2⟩
      exact ⟨h1, by simpa using h2⟩
    · rintro ⟨h1, h2⟩
      exact ⟨h1, by simpa using h2⟩
  · ext x
    simp only [List.mem_toFinset, Finset.mem_union, Finset.mem_sdiff]
    rw [runDiscover_known_mem]
    have hSK : x ∈ scopeFilter wd known → x ∈ known :=
      fun h => (mem_scopeFilter.mp h).1
    tauto
  · intro x hx
    rw [runDiscover_known_mem]
    have hxS : x ∉ scopeFilter wd known := by
      intro hs
      rw [(mem_scopeFilter.mp hs).2] at hx
      cases hx
    have hxD : x ∉ discovered := by
      intro hd
      rw [hD x hd] at hx
      cases hx
    tauto

/-- Witness for C3, the spec's own example with an out-of-scope extra entry:
Known = {/t/P1, /t/P2, /u/Q}, Discovered = {/t/P2, /t/P3}, working directory
`/t`. -/
theorem discover_reconciliation_witness :
    (runDiscover (chars "/t")
        [chars "/t/P1", chars "/t/P2", chars "/u/Q"]
        [chars "/t/P2", chars "/t/P3"] true true).known.toFinset
      = (([chars "/t/P1", chars "/t/P2", chars "/u/Q"] :
            List (List Char)).toFinset
          \ (scopeFilter (chars "/t")
              [chars "/t/P1", chars "/t/P2", chars "/u/Q"]).toFinset)
        ∪ ([chars "/t/P2", chars "/t/P3"] : List (List Char)).toFinset :=
  (discover_reconciliation (chars "/t")
    [chars "/t/P1", chars "/t/P2", chars "/u/Q"]
    [chars "/t/P2", chars "/t/P3"] (by decide)).2.2.1

/-! ## C4 -/

/-- C4 counterexample: the claim says a discover run with `add` or `prune`
set that inserts and removes nothing does not rewrite the registry file.
With the registry `{/t/a}` and the same single repository discovered, New and
Obsolete are both empty, yet `discover --add` still writes the file. -/
theorem registry_rewrite_counterexample :
    (runDiscover (chars "/t") [chars "/t/a"] [chars "/t/a"]
        true false).newRepositories = []
    ∧ (runDiscover (chars "/t") [chars "/t/a"] [chars "/t/a"]
        true false).obsoleteRepositories = []
    ∧ (runDiscover (chars "/t") [chars "/t/a"] [chars "/t/a"]
        true false).write.isSome = true := by
  refine ⟨by decide, by decide, by decide⟩

/-- C4 amended: the registry file is written exactly when the command is
`discover` with `add` or `prune` set — so a plain `discover` leaves the file
untouched (trivially byte-identical) and no other command ever writes it —
but a mutating-flag run rewrites the file even when it inserted and removed
nothing. -/
theorem registry_write_iff (cmd : Commands) (wd : List Char)
    (known discovered : List (List Char)) :
    (registryWrite cmd wd known discovered).isSome = true
      ↔ ∃ a p, cmd = Commands.Discover a p ∧ (a || p) = true := by
  cases cmd with
  | Discover a p =>
    cases a <;> cases p <;> simp [registryWrite, runDiscover]
  | Status => simp [registryWrite]
  | Fetch => simp [registryWrite]
  | ListCmd g => simp [registryWrite]

/-- Witness for C4's amended theorem: `discover --add` on an empty registry
writes the file. -/
theorem registry_write_iff_witness :
    (registryWrite (Commands.Discover true false) (chars "/t") [] []).isSome
      = true :=
  (registry_write_iff (Commands.Discover true false)
    (chars "/t") [] []).mpr ⟨true, false, rfl, rfl⟩

/-! ## C8 -/

theorem serializeRegistry_aux (l : List (List Char)) :
    ∀ acc : List Char,
      l.foldl (fun a p => a ++ p ++ ['\n']) acc
        = acc ++ l.foldl (fun a p => a ++ p ++ ['\n']) [] := by
  induction l with
  | nil => intro acc; simp
  | cons p rest ih =>
    intro acc
    rw [List.foldl_cons, List.foldl_cons, ih, ih (([] : List Char) ++ p ++ ['\n'])]
    simp

theorem serializeRegistry_cons (p : List Char) (l : List (List Char)) :
    serializeRegistry (p :: l) = p ++ '\n' :: serializeRegistry l := by
  unfold serializeRegistry
  rw [List.foldl_cons, serializeRegistry_aux]
  simp

theorem splitNl_append {p : List Char} (rest : List Char)
    (hp : '\n' ∉ p) :
    splitNl (p ++ '\n' :: rest) = p :: splitNl rest := by
  induction p with
  | nil => simp [splitNl]
  | cons c p' ih =>
    have hc : ¬ c = '\n' := fun h => hp (h ▸ List.mem_cons_self _ _)
    rw [List.cons_append]
    rw [show splitNl (c :: (p' ++ '\n' :: rest))
        = if c = '\n' then [] :: splitNl (p' ++ '\n' :: rest)
          else match splitNl (p' ++ '\n' :: rest) with
            | [] => [[c]]
            | q :: qs => (c :: q) :: qs from rfl]
    rw [if_neg hc, ih (fun h => hp (List.mem_cons_of_mem _ h))]

theorem splitNl_serialize {l : List (List Char)}
    (h : ∀ p ∈ l, '\n' ∉ p) :
    splitNl (serializeRegistry l) = l ++ [[]] := by
  induction l with
  | nil => rfl
  | cons p rest ih =>
    rw [serializeRegistry_cons,
      splitNl_append _ (h p (List.mem_cons_self _ _)),
      ih (fun q hq => h q (List.mem_cons_of_mem _ hq))]
    rfl

theorem rustLines0_append_empty (xs : List (List Char)) :
    rustLines0 (xs ++ [[]]) = xs.map stripCR := by
  induction xs with
  | nil => rfl
  | cons x rest ih =>
    cases rest with
    | nil => rfl
    | cons y ys =>
      rw [show rustLines0 ((x :: y :: ys) ++ [[]])
          = stripCR x :: rustLines0 ((y :: ys) ++ [[]]) from rfl, ih]
      rfl

theorem stripCR_eq_self {p : List Char} (h : p.getLast? ≠ some '\r') :
    stripCR p = p := by
  unfold stripCR
  rw [if_neg h]

/-- C8 counterexample: the claim quantifies over every set of distinct paths,
but a path containing a line feed does not survive the round trip: writing
the single path `a\nb` and reloading yields the two paths `a` and `b`. -/
theorem registry_round_trip_counterexample :
    (loadRegistry (serializeRegistry [chars "a\nb"])).toFinset
      ≠ ([chars "a\nb"] : List (List Char)).toFinset := by
  decide

/-- C8 amended: for every buffer of paths none of which contains a line feed
or ends with a carriage return, serializing (one path per line) and reloading
yields exactly the set of those paths — order-independent and duplicate-free
even if a path occurs twice in the buffer. -/
theorem registry_round_trip (l : List (List Char))
    (h : ∀ p ∈ l, '\n' ∉ p ∧ p.getLast? ≠ some '\r') :
    (loadRegistry (serializeRegistry l)).toFinset = l.toFinset := by
  have h1 : rustLinesL (serializeRegistry l) = l := by
    unfold rustLinesL
    rw [splitNl_serialize (fun p hp => (h p hp).1), rustLines0_append_empty]
    calc l.map stripCR = l.map id := by
          apply List.map_congr_left
          intro p hp
          exact stripCR_eq_self (h p hp).2
      _ = l := List.map_id l
  ext x
  simp [mem_loadRegistry, h1]

/-- Witness for C8: a buffer with `a`, `b` and a duplicate `a` reloads to the
set `{a, b}`. -/
theorem registry_round_trip_witness :
    (loadRegistry
        (serializeRegistry [chars "a", chars "b", chars "a"])).toFinset
      = ([chars "a", chars "b", chars "a"] : List (List Char)).toFinset :=
  registry_round_trip [chars "a", chars "b", chars "a"] (by decide)

end Reposcan
